import Mathlib

/-!
Verification of the `data-structures` repository: a self-balancing
(AVL-style) binary search tree (`src/tree.rs`) and a singly linked list
(`src/list.rs`).  The Rust code is shallowly embedded: the mutating Rust
methods become pure functions on inductive types, `usize` heights become
`Nat`, and the `i32` balance factor becomes `Int`.
-/

set_option maxHeartbeats 1000000
set_option linter.unusedSectionVars false

/-- The tree node type from `tree.rs`:
`enum TreeNode<T> { Leaf, Node(T, Box<TreeNode<T>>, Box<TreeNode<T>>) }`.
Structural equality (`PartialEq`/`Eq` in the source) is Lean's `=`. -/
inductive TreeNode (α : Type) where
  | leaf : TreeNode α
  | node (value : α) (left : TreeNode α) (right : TreeNode α) : TreeNode α
deriving DecidableEq

namespace TreeNode

variable {α : Type} [LinearOrder α]

/-- `TreeNode::height`: `Leaf => 0`, `Node => 1 + max(left.height(), right.height())`. -/
def height : TreeNode α → Nat
  | leaf => 0
  | node _ l r => 1 + max l.height r.height

/-- The inner helper of `TreeNode::is_bst`, carrying the open interval
`(min, max)` of admissible values.  The source returns `false` when
`value <= min` or `value >= max`, i.e. it proceeds iff `min < value` and
`value < max` (when the bounds are present). -/
def isBSTHelper : TreeNode α → Option α → Option α → Bool
  | leaf, _, _ => true
  | node v l r, lo, hi =>
      (match lo with
       | some m => decide (m < v)
       | none => true) &&
      (match hi with
       | some m => decide (v < m)
       | none => true) &&
      isBSTHelper l lo (some v) && isBSTHelper r (some v) hi

/-- `TreeNode::is_bst`: runs the helper with no bounds. -/
def isBST (t : TreeNode α) : Bool :=
  isBSTHelper t none none

/-- `TreeNode::is_balanced`: the local height difference is at most 1 and
both children are recursively balanced. -/
def isBalanced : TreeNode α → Bool
  | leaf => true
  | node _ l r =>
      decide (((l.height : Int) - (r.height : Int)).natAbs ≤ 1) &&
      l.isBalanced && r.isBalanced

/-- `TreeNode::validate`: `is_bst() && is_balanced()`. -/
def validate (t : TreeNode α) : Bool :=
  t.isBST && t.isBalanced

/-- `TreeNode::balance_factor`: `left.height() as i32 - right.height() as i32`,
0 for `Leaf`. -/
def balanceFactor : TreeNode α → Int
  | leaf => 0
  | node _ l r => (l.height : Int) - (r.height : Int)

/-- `TreeNode::left_rotate`: promotes the right child; a no-op when the node
is `Leaf` or its right child is `Leaf`. -/
def leftRotate : TreeNode α → TreeNode α
  | node v l (node rv rl rr) => node rv (node v l rl) rr
  | t => t

/-- `TreeNode::right_rotate`: promotes the left child; a no-op when the node
is `Leaf` or its left child is `Leaf`. -/
def rightRotate : TreeNode α → TreeNode α
  | node v (node lv ll lr) r => node lv ll (node v lr r)
  | t => t

/-- `TreeNode::rebalance`: when the balance factor is `> 1` it first
left-rotates the left child if that child's balance factor is negative and
then right-rotates the node; when it is `< -1` the mirror image; otherwise
it does nothing. -/
def rebalance (t : TreeNode α) : TreeNode α :=
  if t.balanceFactor > 1 then
    (match t with
     | node v l r => node v (if l.balanceFactor < 0 then l.leftRotate else l) r
     | leaf => leaf).rightRotate
  else if t.balanceFactor < -1 then
    (match t with
     | node v l r => node v l (if r.balanceFactor > 0 then r.rightRotate else r)
     | leaf => leaf).leftRotate
  else t

/-- The trailing statement of `TreeNode::insert`:
`if !self.is_balanced() { self.rebalance(); }`. -/
def rebalanceIfNeeded (t : TreeNode α) : TreeNode α :=
  if t.isBalanced then t else t.rebalance

/-- `TreeNode::insert`: recursive BST insertion (right if `current < value`,
left if `current > value`, nothing if equal), followed, at every level, by
the balance check and conditional rebalance. -/
def insert : TreeNode α → α → TreeNode α
  | leaf, v => rebalanceIfNeeded (node v leaf leaf)
  | node c l r, v =>
      rebalanceIfNeeded
        (if c < v then node c l (insert r v)
         else if v < c then node c (insert l v) r
         else node c l r)

/-- `impl From<TreeNode<T>> for Vec<T>`: in-order traversal
(left, value, right). -/
def toVec : TreeNode α → List α
  | leaf => []
  | node v l r => toVec l ++ v :: toVec r

/-- `impl From<Vec<T>> for TreeNode<T>`: inserts every element in order into
an initially empty tree. -/
def fromVec (xs : List α) : TreeNode α :=
  xs.foldl insert leaf

/-- Instrumentation of `TreeNode::insert` that counts how many times
`self.rebalance()` is invoked along the way (the source calls it exactly
when `is_balanced()` is false after the recursive step). -/
def insertRebalanceCount : TreeNode α → α → Nat
  | leaf, v =>
      if (node v leaf leaf : TreeNode α).isBalanced then 0 else 1
  | node c l r, v =>
      (if c < v then insertRebalanceCount r v
       else if v < c then insertRebalanceCount l v
       else 0) +
      (if (if c < v then node c l (insert r v)
           else if v < c then node c (insert l v) r
           else node c l r).isBalanced then 0 else 1)

end TreeNode

/-! ### Basic lemmas: rotations and in-order traversal -/

namespace TreeNode

variable {α : Type} [LinearOrder α]

theorem toVec_leftRotate (t : TreeNode α) : t.leftRotate.toVec = t.toVec := by
  match t with
  | leaf => rfl
  | node v l leaf => rfl
  | node v l (node rv rl rr) => simp [leftRotate, toVec]

theorem toVec_rightRotate (t : TreeNode α) : t.rightRotate.toVec = t.toVec := by
  match t with
  | leaf => rfl
  | node v leaf r => rfl
  | node v (node lv ll lr) r => simp [rightRotate, toVec]

theorem toVec_rebalance (t : TreeNode α) : t.rebalance.toVec = t.toVec := by
  unfold rebalance
  split
  · rw [toVec_rightRotate]
    cases t with
    | leaf => rfl
    | node v l r =>
        simp only [toVec]
        split
        · rw [toVec_leftRotate]
        · rfl
  · split
    · rw [toVec_leftRotate]
      cases t with
      | leaf => rfl
      | node v l r =>
          simp only [toVec]
          split
          · rw [toVec_rightRotate]
          · rfl
    · rfl

theorem toVec_rebalanceIfNeeded (t : TreeNode α) :
    t.rebalanceIfNeeded.toVec = t.toVec := by
  unfold rebalanceIfNeeded
  split
  · rfl
  · exact toVec_rebalance t

/-! ### Characterisation of the BST check by the in-order traversal -/

/-- The lower-bound side condition carried by `isBSTHelper`. -/
def OptLB : Option α → α → Prop
  | none, _ => True
  | some m, x => m < x

/-- The upper-bound side condition carried by `isBSTHelper`. -/
def OptUB : Option α → α → Prop
  | none, _ => True
  | some m, x => x < m

theorem lb_check_iff (lo : Option α) (v : α) :
    ((match lo with
      | some m => decide (m < v)
      | none => true) = true) ↔ OptLB lo v := by
  cases lo <;> simp [OptLB]

theorem ub_check_iff (hi : Option α) (v : α) :
    ((match hi with
      | some m => decide (v < m)
      | none => true) = true) ↔ OptUB hi v := by
  cases hi <;> simp [OptUB]

theorem optLB_of_lt {lo : Option α} {v x : α} (h : v < x) (hv : OptLB lo v) :
    OptLB lo x := by
  cases lo with
  | none => trivial
  | some m => exact lt_trans hv h

theorem optUB_of_lt {hi : Option α} {v x : α} (h : x < v) (hv : OptUB hi v) :
    OptUB hi x := by
  cases hi with
  | none => trivial
  | some m => exact lt_trans h hv

theorem isBSTHelper_iff (t : TreeNode α) : ∀ lo hi,
    isBSTHelper t lo hi = true ↔
      t.toVec.Pairwise (· < ·) ∧ ∀ x ∈ t.toVec, OptLB lo x ∧ OptUB hi x := by
  induction t with
  | leaf => intro lo hi; simp [isBSTHelper, toVec]
  | node v l r ihl ihr =>
      intro lo hi
      simp only [isBSTHelper, Bool.and_eq_true, lb_check_iff, ub_check_iff,
        ihl, ihr, toVec]
      constructor
      · rintro ⟨⟨⟨hlov, hhiv⟩, hpl, hbl⟩, hpr, hbr⟩
        refine ⟨?_, ?_⟩
        · rw [List.pairwise_append]
          refine ⟨hpl, ?_, ?_⟩
          · rw [List.pairwise_cons]
            exact ⟨fun y hy => (hbr y hy).1, hpr⟩
          · intro a ha b hb
            have hav : a < v := (hbl a ha).2
            rcases List.mem_cons.mp hb with rfl | hb
            · exact hav
            · exact lt_trans hav (hbr b hb).1
        · intro x hx
          rcases List.mem_append.mp hx with hx | hx
          · exact ⟨(hbl x hx).1, optUB_of_lt (hbl x hx).2 hhiv⟩
          · rcases List.mem_cons.mp hx with rfl | hx
            · exact ⟨hlov, hhiv⟩
            · exact ⟨optLB_of_lt (hbr x hx).1 hlov, (hbr x hx).2⟩
      · rintro ⟨hp, hb⟩
        rw [List.pairwise_append] at hp
        obtain ⟨hpl, hpvr, hcross⟩ := hp
        rw [List.pairwise_cons] at hpvr
        obtain ⟨hvr, hpr⟩ := hpvr
        have hvmem : v ∈ l.toVec ++ v :: r.toVec :=
          List.mem_append.mpr (Or.inr (List.mem_cons_self v _))
        refine ⟨⟨⟨(hb v hvmem).1, (hb v hvmem).2⟩, hpl, ?_⟩, hpr, ?_⟩
        · intro x hx
          have hxmem : x ∈ l.toVec ++ v :: r.toVec :=
            List.mem_append.mpr (Or.inl hx)
          exact ⟨(hb x hxmem).1, hcross x hx v (List.mem_cons_self v _)⟩
        · intro x hx
          have hxmem : x ∈ l.toVec ++ v :: r.toVec :=
            List.mem_append.mpr (Or.inr (List.mem_cons.mpr (Or.inr hx)))
          exact ⟨hvr x hx, (hb x hxmem).2⟩

theorem isBST_iff (t : TreeNode α) :
    t.isBST = true ↔ t.toVec.Pairwise (· < ·) := by
  simp [isBST, isBSTHelper_iff, OptLB, OptUB]

/-! ### The in-order traversal of `insert` -/

theorem orderedInsert_append_of_not_le (v : α) (L1 L2 : List α)
    (h : ∀ x ∈ L1, ¬ v ≤ x) :
    List.orderedInsert (· ≤ ·) v (L1 ++ L2) =
      L1 ++ List.orderedInsert (· ≤ ·) v L2 := by
  induction L1 with
  | nil => rfl
  | cons x L1 ih =>
      simp only [List.cons_append, List.orderedInsert,
        if_neg (h x (List.mem_cons_self x L1)), List.append_eq]
      rw [ih (fun y hy => h y (List.mem_cons.mpr (Or.inr hy)))]

theorem orderedInsert_append_of_le {v c : α} (L1 L2 : List α) (h : v ≤ c) :
    List.orderedInsert (· ≤ ·) v (L1 ++ c :: L2) =
      List.orderedInsert (· ≤ ·) v L1 ++ c :: L2 := by
  induction L1 with
  | nil => simp [List.orderedInsert, h]
  | cons x L1 ih =>
      by_cases hx : v ≤ x
      · simp [List.orderedInsert, hx]
      · simp only [List.cons_append, List.orderedInsert, if_neg hx, List.append_eq]
        rw [ih]

theorem toVec_insert (v : α) :
    ∀ t : TreeNode α, t.toVec.Pairwise (· < ·) →
      (t.insert v).toVec =
        if v ∈ t.toVec then t.toVec
        else List.orderedInsert (· ≤ ·) v t.toVec := by
  intro t
  induction t with
  | leaf => intro _; simp [insert, toVec_rebalanceIfNeeded, toVec, List.orderedInsert]
  | node c l r ihl ihr =>
      intro hp
      have hp' := hp
      rw [toVec] at hp'
      rw [List.pairwise_append] at hp'
      obtain ⟨hpl, hpvr, hcross⟩ := hp'
      rw [List.pairwise_cons] at hpvr
      obtain ⟨hvr, hpr⟩ := hpvr
      rcases lt_trichotomy c v with hc | hc | hc
      · -- insertion goes right
        rw [insert, if_pos hc, toVec_rebalanceIfNeeded, toVec, ihr hpr, toVec]
        by_cases hm : v ∈ r.toVec
        · have hmem : v ∈ l.toVec ++ c :: r.toVec :=
            List.mem_append.mpr (Or.inr (List.mem_cons.mpr (Or.inr hm)))
          rw [if_pos hm, if_pos hmem]
        · have hnl : ∀ x ∈ l.toVec, ¬ v ≤ x := by
            intro x hx
            have : x < c := hcross x hx c (List.mem_cons_self c _)
            exact not_le.mpr (lt_trans this hc)
          have hmem : v ∉ l.toVec ++ c :: r.toVec := by
            intro hmem
            rcases List.mem_append.mp hmem with hv | hv
            · exact hnl v hv (le_refl v)
            · rcases List.mem_cons.mp hv with rfl | hv
              · exact absurd hc (lt_irrefl v)
              · exact hm hv
          rw [if_neg hm, if_neg hmem,
            orderedInsert_append_of_not_le v l.toVec (c :: r.toVec) hnl]
          simp only [List.orderedInsert, if_neg (not_le.mpr hc)]
      · -- equal: no-op
        subst hc
        rw [insert, if_neg (lt_irrefl c), if_neg (lt_irrefl c),
          toVec_rebalanceIfNeeded]
        have hmem : c ∈ l.toVec ++ c :: r.toVec :=
          List.mem_append.mpr (Or.inr (List.mem_cons_self c _))
        rw [toVec, if_pos hmem]
      · -- insertion goes left
        rw [insert, if_neg (not_lt.mpr (le_of_lt hc)), if_pos hc,
          toVec_rebalanceIfNeeded, toVec, ihl hpl, toVec]
        by_cases hm : v ∈ l.toVec
        · have hmem : v ∈ l.toVec ++ c :: r.toVec := List.mem_append.mpr (Or.inl hm)
          rw [if_pos hm, if_pos hmem]
        · have hmem : v ∉ l.toVec ++ c :: r.toVec := by
            intro hmem
            rcases List.mem_append.mp hmem with hv | hv
            · exact hm hv
            · rcases List.mem_cons.mp hv with rfl | hv
              · exact absurd hc (lt_irrefl v)
              · exact absurd hc (not_lt.mpr (le_of_lt (hvr v hv)))
          rw [if_neg hm, if_neg hmem,
            orderedInsert_append_of_le l.toVec r.toVec (le_of_lt hc)]

theorem mem_toVec_insert (v : α) (t : TreeNode α)
    (hp : t.toVec.Pairwise (· < ·)) (x : α) :
    x ∈ (t.insert v).toVec ↔ x = v ∨ x ∈ t.toVec := by
  rw [toVec_insert v t hp]
  by_cases hm : v ∈ t.toVec
  · rw [if_pos hm]
    constructor
    · exact Or.inr
    · rintro (rfl | h) <;> [exact hm; exact h]
  · rw [if_neg hm]
    exact List.mem_orderedInsert _

theorem pairwise_orderedInsert (v : α) :
    ∀ L : List α, L.Pairwise (· < ·) → v ∉ L →
      (List.orderedInsert (· ≤ ·) v L).Pairwise (· < ·) := by
  intro L
  induction L with
  | nil => intro _ _; simp [List.orderedInsert]
  | cons x L ih =>
      intro hp hv
      rw [List.pairwise_cons] at hp
      obtain ⟨hx, hp⟩ := hp
      by_cases hle : v ≤ x
      · have hvx : v < x :=
          lt_of_le_of_ne hle (fun h => hv (h ▸ List.mem_cons_self x L))
        rw [List.orderedInsert, if_pos hle, List.pairwise_cons]
        refine ⟨?_, List.pairwise_cons.mpr ⟨hx, hp⟩⟩
        intro y hy
        rcases List.mem_cons.mp hy with rfl | hy
        · exact hvx
        · exact lt_trans hvx (hx y hy)
      · rw [List.orderedInsert, if_neg hle, List.pairwise_cons]
        refine ⟨?_, ih hp (fun h => hv (List.mem_cons.mpr (Or.inr h)))⟩
        intro y hy
        rcases (List.mem_orderedInsert _).mp hy with rfl | hy
        · exact not_le.mp hle
        · exact hx y hy

theorem isBST_insert (v : α) (t : TreeNode α) (h : t.isBST = true) :
    (t.insert v).isBST = true := by
  rw [isBST_iff] at h ⊢
  rw [toVec_insert v t h]
  by_cases hm : v ∈ t.toVec
  · rwa [if_pos hm]
  · rw [if_neg hm]
    exact pairwise_orderedInsert v t.toVec h hm

/-! ### Balance preservation under insertion -/

theorem height_eq_zero_iff (t : TreeNode α) : t.height = 0 ↔ t = leaf := by
  cases t with
  | leaf => simp [height]
  | node v l r =>
      simp only [height]
      constructor
      · intro h; omega
      · intro h; simp at h

theorem isBalanced_node_iff {c : α} {l r : TreeNode α} :
    (node c l r).isBalanced = true ↔
      ((l.height : Int) - (r.height : Int)).natAbs ≤ 1 ∧
        l.isBalanced = true ∧ r.isBalanced = true := by
  simp [isBalanced, Bool.and_eq_true, decide_eq_true_eq, and_assoc]

theorem rebalance_of_rightHeavy (c : α) (l r : TreeNode α)
    (hl : l.isBalanced = true) (hr : r.isBalanced = true)
    (hh : r.height = l.height + 2) (hbf : r.balanceFactor ≠ 0) :
    (node c l r).rebalance.isBalanced = true ∧
      (node c l r).rebalance.height = l.height + 2 := by
  cases r with
  | leaf => simp [height] at hh
  | node rv rl rr =>
      rw [isBalanced_node_iff] at hr
      obtain ⟨hd, hrl, hrr⟩ := hr
      have hhh : 1 + max rl.height rr.height = l.height + 2 := by
        simpa [height] using hh
      have hbf' : (rl.height : Int) - rr.height ≠ 0 := by
        simpa [balanceFactor] using hbf
      have h1 : ¬ ((node c l (node rv rl rr)).balanceFactor > 1) := by
        simp only [balanceFactor, height]; omega
      have h2 : (node c l (node rv rl rr)).balanceFactor < -1 := by
        simp only [balanceFactor, height]; omega
      unfold rebalance
      rw [if_neg h1, if_pos h2]
      by_cases hpos : (node rv rl rr).balanceFactor > 0
      · -- right-left shape: double rotation
        have hrl_h : rl.height = l.height + 1 := by
          simp only [balanceFactor] at hpos; omega
        have hrr_h : rr.height = l.height := by
          simp only [balanceFactor] at hpos; omega
        cases rl with
        | leaf => simp [height] at hrl_h
        | node rlv rll rlr =>
            rw [isBalanced_node_iff] at hrl
            obtain ⟨hd2, hrll, hrlr⟩ := hrl
            have hmax2 : 1 + max rll.height rlr.height = l.height + 1 := by
              simpa [height] using hrl_h
            simp only [if_pos hpos, rightRotate, leftRotate]
            constructor
            · simp only [isBalanced_node_iff]
              refine ⟨?_, ⟨?_, hl, hrll⟩, ?_, hrlr, hrr⟩ <;>
                (try simp only [height]) <;> omega
            · simp only [height]; omega
      · -- right-right shape: single left rotation
        have hrl_h : rl.height = l.height := by
          simp only [balanceFactor] at hpos; omega
        have hrr_h : rr.height = l.height + 1 := by
          simp only [balanceFactor] at hpos; omega
        simp only [if_neg hpos, leftRotate]
        constructor
        · simp only [isBalanced_node_iff]
          refine ⟨?_, ⟨?_, hl, hrl⟩, hrr⟩ <;>
            (try simp only [height]) <;> omega
        · simp only [height]; omega

theorem rebalance_of_leftHeavy (c : α) (l r : TreeNode α)
    (hl : l.isBalanced = true) (hr : r.isBalanced = true)
    (hh : l.height = r.height + 2) (hbf : l.balanceFactor ≠ 0) :
    (node c l r).rebalance.isBalanced = true ∧
      (node c l r).rebalance.height = r.height + 2 := by
  cases l with
  | leaf => simp [height] at hh
  | node lv ll lr =>
      rw [isBalanced_node_iff] at hl
      obtain ⟨hd, hll, hlr⟩ := hl
      have hhh : 1 + max ll.height lr.height = r.height + 2 := by
        simpa [height] using hh
      have hbf' : (ll.height : Int) - lr.height ≠ 0 := by
        simpa [balanceFactor] using hbf
      have h1 : (node c (node lv ll lr) r).balanceFactor > 1 := by
        simp only [balanceFactor, height]; omega
      unfold rebalance
      rw [if_pos h1]
      by_cases hneg : (node lv ll lr).balanceFactor < 0
      · -- left-right shape: double rotation
        have hll_h : ll.height = r.height := by
          simp only [balanceFactor] at hneg; omega
        have hlr_h : lr.height = r.height + 1 := by
          simp only [balanceFactor] at hneg; omega
        cases lr with
        | leaf => simp [height] at hlr_h
        | node lrv lrl lrr =>
            rw [isBalanced_node_iff] at hlr
            obtain ⟨hd2, hlrl, hlrr⟩ := hlr
            have hmax2 : 1 + max lrl.height lrr.height = r.height + 1 := by
              simpa [height] using hlr_h
            simp only [if_pos hneg, leftRotate, rightRotate]
            constructor
            · simp only [isBalanced_node_iff]
              refine ⟨?_, ⟨?_, hll, hlrl⟩, ?_, hlrr, hr⟩ <;>
                (try simp only [height]) <;> omega
            · simp only [height]; omega
      · -- left-left shape: single right rotation
        have hll_h : ll.height = r.height + 1 := by
          simp only [balanceFactor] at hneg; omega
        have hlr_h : lr.height = r.height := by
          simp only [balanceFactor] at hneg; omega
        simp only [if_neg hneg, rightRotate]
        constructor
        · simp only [isBalanced_node_iff]
          refine ⟨?_, hll, ?_, hlr, hr⟩ <;>
            (try simp only [height]) <;> omega
        · simp only [height]; omega

theorem insert_balanced (v : α) :
    ∀ t : TreeNode α, t.isBalanced = true →
      (t.insert v).isBalanced = true ∧
      t.height ≤ (t.insert v).height ∧
      (t.insert v).height ≤ t.height + 1 ∧
      ((t.insert v).height = t.height + 1 → t ≠ leaf →
        (t.insert v).balanceFactor ≠ 0) := by
  intro t
  induction t with
  | leaf =>
      intro _
      have hb : (node v leaf leaf : TreeNode α).isBalanced = true := by
        simp [isBalanced, height]
      rw [insert, rebalanceIfNeeded, if_pos hb]
      refine ⟨hb, ?_, ?_, ?_⟩
      · simp [height]
      · simp [height]
      · intro _ hne; exact absurd rfl hne
  | node c l r ihl ihr =>
      intro hbal
      have hbal' := hbal
      rw [isBalanced_node_iff] at hbal'
      obtain ⟨hd, hl, hr⟩ := hbal'
      rcases lt_trichotomy c v with hc | hc | hc
      · -- insertion descends right
        obtain ⟨hb', hg1, hg2, hbf'⟩ := ihr hr
        rw [insert, if_pos hc, rebalanceIfNeeded]
        by_cases hB : (node c l (r.insert v)).isBalanced = true
        · rw [if_pos hB]
          obtain ⟨hB1, hBl, hBr⟩ := isBalanced_node_iff.mp hB
          refine ⟨hB, ?_, ?_, ?_⟩
          · simp only [height]; omega
          · simp only [height]; omega
          · intro hgrow _
            simp only [height] at hgrow
            simp only [balanceFactor]
            omega
        · rw [if_neg hB]
          have hni : ¬ (((l.height : Int) - ((r.insert v).height : Int)).natAbs ≤ 1) := by
            intro hcon
            exact hB (isBalanced_node_iff.mpr ⟨hcon, hl, hb'⟩)
          have hh2 : (r.insert v).height = l.height + 2 := by omega
          have hrg : (r.insert v).height = r.height + 1 := by omega
          have hrh : r.height = l.height + 1 := by omega
          have hrne : r ≠ leaf := by
            intro hre
            rw [hre, height] at hrh
            omega
          have hbfr : (r.insert v).balanceFactor ≠ 0 := hbf' hrg hrne
          obtain ⟨hreb, hrebh⟩ :=
            rebalance_of_rightHeavy c l (r.insert v) hl hb' hh2 hbfr
          refine ⟨hreb, ?_, ?_, ?_⟩
          · rw [hrebh]; simp only [height]; omega
          · rw [hrebh]; simp only [height]; omega
          · intro hgrow _
            exfalso
            rw [hrebh] at hgrow
            simp only [height] at hgrow
            omega
      · -- equal value: structural no-op
        subst hc
        rw [insert, if_neg (lt_irrefl c), if_neg (lt_irrefl c),
          rebalanceIfNeeded, if_pos hbal]
        refine ⟨hbal, le_refl _, by omega, ?_⟩
        intro hgrow _
        exfalso
        omega
      · -- insertion descends left
        obtain ⟨hb', hg1, hg2, hbf'⟩ := ihl hl
        rw [insert, if_neg (not_lt.mpr (le_of_lt hc)), if_pos hc, rebalanceIfNeeded]
        by_cases hB : (node c (l.insert v) r).isBalanced = true
        · rw [if_pos hB]
          obtain ⟨hB1, hBl, hBr⟩ := isBalanced_node_iff.mp hB
          refine ⟨hB, ?_, ?_, ?_⟩
          · simp only [height]; omega
          · simp only [height]; omega
          · intro hgrow _
            simp only [height] at hgrow
            simp only [balanceFactor]
            omega
        · rw [if_neg hB]
          have hni : ¬ ((((l.insert v).height : Int) - (r.height : Int)).natAbs ≤ 1) := by
            intro hcon
            exact hB (isBalanced_node_iff.mpr ⟨hcon, hb', hr⟩)
          have hh2 : (l.insert v).height = r.height + 2 := by omega
          have hlg : (l.insert v).height = l.height + 1 := by omega
          have hlh : l.height = r.height + 1 := by omega
          have hlne : l ≠ leaf := by
            intro hle
            rw [hle, height] at hlh
            omega
          have hbfl : (l.insert v).balanceFactor ≠ 0 := hbf' hlg hlne
          obtain ⟨hreb, hrebh⟩ :=
            rebalance_of_leftHeavy c (l.insert v) r hb' hr hh2 hbfl
          refine ⟨hreb, ?_, ?_, ?_⟩
          · rw [hrebh]; simp only [height]; omega
          · rw [hrebh]; simp only [height]; omega
          · intro hgrow _
            exfalso
            rw [hrebh] at hgrow
            simp only [height] at hgrow
            omega

/-! ### Validity of trees built by insertion -/

theorem validate_insert (v : α) (t : TreeNode α) (h : t.validate = true) :
    (t.insert v).validate = true := by
  rw [validate, Bool.and_eq_true] at h ⊢
  exact ⟨isBST_insert v t h.1, (insert_balanced v t h.2).1⟩

theorem validate_leaf : (leaf : TreeNode α).validate = true := by
  simp [validate, isBST, isBSTHelper, isBalanced]

theorem validate_foldl (xs : List α) :
    ∀ t : TreeNode α, t.validate = true → (xs.foldl insert t).validate = true := by
  induction xs with
  | nil => intro t h; exact h
  | cons x xs ih => intro t h; exact ih _ (validate_insert x t h)

theorem validate_fromVec (xs : List α) : (fromVec xs).validate = true :=
  validate_foldl xs leaf validate_leaf

theorem pairwise_toVec_of_validate {t : TreeNode α} (h : t.validate = true) :
    t.toVec.Pairwise (· < ·) := by
  rw [validate, Bool.and_eq_true] at h
  exact (isBST_iff t).mp h.1

theorem mem_toVec_foldl (xs : List α) :
    ∀ t : TreeNode α, t.validate = true → ∀ x,
      (x ∈ (xs.foldl insert t).toVec ↔ x ∈ t.toVec ∨ x ∈ xs) := by
  induction xs with
  | nil => intro t h x; simp
  | cons y xs ih =>
      intro t h x
      rw [List.foldl_cons, ih _ (validate_insert y t h) x,
        mem_toVec_insert y t (pairwise_toVec_of_validate h) x]
      simp only [List.mem_cons]
      tauto

theorem mem_toVec_fromVec (xs : List α) (x : α) :
    x ∈ (fromVec xs).toVec ↔ x ∈ xs := by
  rw [fromVec, mem_toVec_foldl xs leaf validate_leaf x]
  simp [toVec]

/-- Two strictly sorted lists with the same members are equal. -/
theorem eq_of_pairwise_lt_of_mem_iff :
    ∀ (L1 L2 : List α), L1.Pairwise (· < ·) → L2.Pairwise (· < ·) →
      (∀ x, x ∈ L1 ↔ x ∈ L2) → L1 = L2 := by
  intro L1
  induction L1 with
  | nil =>
      intro L2 _ _ hm
      cases L2 with
      | nil => rfl
      | cons b L2 =>
          exact absurd ((hm b).mpr (List.mem_cons_self b L2)) (List.not_mem_nil b)
  | cons a L1 ih =>
      intro L2 hp1 hp2 hm
      cases L2 with
      | nil => exact absurd ((hm a).mp (List.mem_cons_self a L1)) (List.not_mem_nil a)
      | cons b L2 =>
          rw [List.pairwise_cons] at hp1 hp2
          obtain ⟨ha1, hp1'⟩ := hp1
          obtain ⟨hb1, hp2'⟩ := hp2
          have hab : a = b := by
            rcases List.mem_cons.mp ((hm a).mp (List.mem_cons_self a L1)) with h | h
            · exact h
            · rcases List.mem_cons.mp ((hm b).mpr (List.mem_cons_self b L2)) with h2 | h2
              · exact h2.symm
              · exact absurd (ha1 b h2) (not_lt.mpr (le_of_lt (hb1 a h)))
          subst hab
          congr 1
          apply ih L2 hp1' hp2'
          intro x
          constructor
          · intro hx
            rcases List.mem_cons.mp ((hm x).mp (List.mem_cons.mpr (Or.inr hx))) with rfl | h
            · exact absurd (ha1 x hx) (lt_irrefl x)
            · exact h
          · intro hx
            rcases List.mem_cons.mp ((hm x).mpr (List.mem_cons.mpr (Or.inr hx))) with rfl | h
            · exact absurd (hb1 x hx) (lt_irrefl x)
            · exact h

/-! ### Inserting a value that is already present -/

theorem insert_of_mem (v : α) :
    ∀ t : TreeNode α, t.validate = true → v ∈ t.toVec → t.insert v = t := by
  intro t
  induction t with
  | leaf => intro _ hm; simp [toVec] at hm
  | node c l r ihl ihr =>
      intro hv hm
      have hp := pairwise_toVec_of_validate hv
      rw [toVec, List.pairwise_append] at hp
      obtain ⟨hpl, hpvr, hcross⟩ := hp
      rw [List.pairwise_cons] at hpvr
      obtain ⟨hhead, hpr⟩ := hpvr
      rw [validate, Bool.and_eq_true] at hv
      obtain ⟨hbst, hbal⟩ := hv
      obtain ⟨hdd, hbl, hbr⟩ := isBalanced_node_iff.mp hbal
      have hvl : l.validate = true := by
        rw [validate, Bool.and_eq_true, isBST_iff]
        exact ⟨hpl, hbl⟩
      have hvr : r.validate = true := by
        rw [validate, Bool.and_eq_true, isBST_iff]
        exact ⟨hpr, hbr⟩
      rw [toVec] at hm
      rcases List.mem_append.mp hm with hml | hmr
      · have hvc : v < c := hcross v hml c (List.mem_cons_self c _)
        rw [insert, if_neg (not_lt.mpr (le_of_lt hvc)), if_pos hvc, ihl hvl hml,
          rebalanceIfNeeded, if_pos hbal]
      · rcases List.mem_cons.mp hmr with rfl | hmr
        · rw [insert, if_neg (lt_irrefl v), if_neg (lt_irrefl v),
            rebalanceIfNeeded, if_pos hbal]
        · have hcv : c < v := hhead v hmr
          rw [insert, if_pos hcv, ihr hvr hmr, rebalanceIfNeeded, if_pos hbal]

theorem insertRebalanceCount_of_mem (v : α) :
    ∀ t : TreeNode α, t.validate = true → v ∈ t.toVec →
      t.insertRebalanceCount v = 0 := by
  intro t
  induction t with
  | leaf => intro _ hm; simp [toVec] at hm
  | node c l r ihl ihr =>
      intro hv hm
      have hp := pairwise_toVec_of_validate hv
      rw [toVec, List.pairwise_append] at hp
      obtain ⟨hpl, hpvr, hcross⟩ := hp
      rw [List.pairwise_cons] at hpvr
      obtain ⟨hhead, hpr⟩ := hpvr
      rw [validate, Bool.and_eq_true] at hv
      obtain ⟨hbst, hbal⟩ := hv
      obtain ⟨hdd, hbl, hbr⟩ := isBalanced_node_iff.mp hbal
      have hvl : l.validate = true := by
        rw [validate, Bool.and_eq_true, isBST_iff]
        exact ⟨hpl, hbl⟩
      have hvr : r.validate = true := by
        rw [validate, Bool.and_eq_true, isBST_iff]
        exact ⟨hpr, hbr⟩
      rw [toVec] at hm
      rcases List.mem_append.mp hm with hml | hmr
      · have hvc : v < c := hcross v hml c (List.mem_cons_self c _)
        rw [insertRebalanceCount, if_neg (not_lt.mpr (le_of_lt hvc)), if_pos hvc,
          if_neg (not_lt.mpr (le_of_lt hvc)), if_pos hvc,
          insert_of_mem v l hvl hml, ihl hvl hml, if_pos hbal]
      · rcases List.mem_cons.mp hmr with rfl | hmr
        · rw [insertRebalanceCount, if_neg (lt_irrefl v), if_neg (lt_irrefl v),
            if_neg (lt_irrefl v), if_neg (lt_irrefl v), if_pos hbal]
        · have hcv : c < v := hhead v hmr
          rw [insertRebalanceCount, if_pos hcv, if_pos hcv,
            insert_of_mem v r hvr hmr, ihr hvr hmr, if_pos hbal]

end TreeNode

/-! ### The linked list (`src/list.rs`) -/

/-- The list node type from `list.rs`:
`enum ListNode<T> { Nil, Cons(T, Box<ListNode<T>>) }`. -/
inductive ListNode (α : Type) where
  | nil : ListNode α
  | cons (value : α) (next : ListNode α) : ListNode α
deriving DecidableEq

namespace ListNode

variable {α : Type}

/-- `ListNode::insert`: the first component is the updated content of the
node the method was called on; the second component is the depth, below
that node, of the node the returned `&mut` reference points at (`0`: the
node itself, from the `Nil` branch; `1`: its `next`, from the `Cons`
branch). -/
def insert : ListNode α → α → ListNode α × Nat
  | nil, v => (cons v nil, 0)
  | cons y next, v => (cons y (cons v next), 1)

/-- The loop of `impl From<Vec<T>> for ListNode<T>`
(`pos = pos.insert(elem)`), modelled on the content of the node the cursor
currently points at: the `Nil` branch of `insert` leaves the cursor on the
same node with content `Cons(x, Nil)`; the `Cons(y, next)` branch rewrites
the node to `Cons(y, Cons(x, next))` and moves the cursor to the inserted
node. -/
def buildAux : ListNode α → List α → ListNode α
  | pos, [] => pos
  | nil, x :: rest => buildAux (cons x nil) rest
  | cons y next, x :: rest => cons y (buildAux (cons x next) rest)

/-- `impl From<Vec<T>> for ListNode<T>`: run the cursor loop from an empty
list. -/
def fromVec (xs : List α) : ListNode α :=
  buildAux nil xs

/-- `impl From<ListNode<T>> for Vec<T>`: the while-loop pushing each value
in order. -/
def toVec : ListNode α → List α
  | nil => []
  | cons v n => v :: toVec n

theorem toVec_buildAux (xs : List α) :
    ∀ (y : α) (next : ListNode α),
      (buildAux (cons y next) xs).toVec = y :: (xs ++ next.toVec) := by
  induction xs with
  | nil => intro y next; rfl
  | cons x rest ih =>
      intro y next
      rw [buildAux, toVec, ih x next]
      simp

end ListNode

/-! ### Claims about the tree -/

namespace TreeNode

variable {α : Type} [LinearOrder α]

theorem pairwise_lt_of_le_of_ne :
    ∀ L : List α, L.Pairwise (· ≤ ·) → L.Pairwise (· ≠ ·) → L.Pairwise (· < ·) := by
  intro L
  induction L with
  | nil => intro _ _; exact List.Pairwise.nil
  | cons a L ih =>
      intro h1 h2
      rw [List.pairwise_cons] at h1 h2 ⊢
      exact ⟨fun y hy => lt_of_le_of_ne (h1.1 y hy) (h2.1 y hy),
        ih h1.2 h2.2⟩

/-- Claim C1: for every sequence of distinct values inserted one at a time
into an initially empty tree, `validate()` returns true on the tree after
every single insertion, i.e. on the tree built from every prefix of the
sequence. -/
theorem claimC1 (xs : List α) (h : xs.Nodup) (k : Nat) :
    (fromVec (xs.take k)).validate = true :=
  validate_fromVec (xs.take k)

/-- Witness for C1 at the concrete distinct sequence `[1, 2, 3]` and the
intermediate prefix of length 2. -/
theorem claimC1_witness :
    ([1, 2, 3] : List Int).Nodup ∧
      (fromVec (([1, 2, 3] : List Int).take 2)).validate = true :=
  ⟨by decide, claimC1 [1, 2, 3] (by decide) 2⟩

/-- Claim C2: converting any sequence to a tree and back (in-order) yields
exactly the ascending sort of the distinct elements of the sequence. -/
theorem claimC2 (xs : List α) :
    (fromVec xs).toVec = Finset.sort (· ≤ ·) xs.toFinset := by
  apply eq_of_pairwise_lt_of_mem_iff
  · exact pairwise_toVec_of_validate (validate_fromVec xs)
  · exact pairwise_lt_of_le_of_ne _ (Finset.sort_sorted _ _) (Finset.sort_nodup _ _)
  · intro x
    rw [mem_toVec_fromVec, Finset.mem_sort, List.mem_toFinset]

/-- Counterexample to claim C3 as stated: in the unbalanced tree
`Node(1, Leaf, Node(2, Leaf, Node(3, Leaf, Leaf)))` the value `1` is
already present, yet `insert(1)` changes the tree (the trailing balance
check fires and rebalances), so "for every tree" is false. -/
theorem claimC3_counterexample :
    (1 : Int) ∈ (node 1 leaf (node 2 leaf (node 3 leaf leaf)) : TreeNode Int).toVec ∧
      (node 1 leaf (node 2 leaf (node 3 leaf leaf)) : TreeNode Int).insert 1 ≠
        node 1 leaf (node 2 leaf (node 3 leaf leaf)) := by
  decide

/-- Claim C3, amended: for every tree satisfying the validated invariants
(BST and balance) — in particular every tree built by insertions — and
every value already present in it, `insert` of that value leaves the tree
structurally unchanged and performs no rebalance. -/
theorem claimC3_amended (t : TreeNode α) (v : α) (hval : t.validate = true)
    (hmem : v ∈ t.toVec) :
    t.insert v = t ∧ t.insertRebalanceCount v = 0 :=
  ⟨insert_of_mem v t hval hmem, insertRebalanceCount_of_mem v t hval hmem⟩

/-- Witness for the amended C3 at the concrete valid tree built from
`[2, 1, 3]` and the present value `1`. -/
theorem claimC3_witness :
    (fromVec ([2, 1, 3] : List Int)).validate = true ∧
      (1 : Int) ∈ (fromVec ([2, 1, 3] : List Int)).toVec ∧
      ((fromVec ([2, 1, 3] : List Int)).insert 1 = fromVec ([2, 1, 3] : List Int) ∧
        (fromVec ([2, 1, 3] : List Int)).insertRebalanceCount 1 = 0) :=
  ⟨by decide, by decide, claimC3_amended _ 1 (by decide) (by decide)⟩

/-- Claim C4: inserting `[1, 2, 3]` (right-right case) and `[3, 1, 2]`
(left-right case) each produce exactly the balanced tree with root `2`,
left child `1` and right child `3`. -/
theorem claimC4 :
    fromVec ([1, 2, 3] : List Int) =
        node 2 (node 1 leaf leaf) (node 3 leaf leaf) ∧
      fromVec ([3, 1, 2] : List Int) =
        node 2 (node 1 leaf leaf) (node 3 leaf leaf) := by
  decide

/-- Claim C6: a left rotation followed by a right rotation (and vice versa)
always restores the in-order sequence; when the first rotation actually
changed the tree (it was not a no-op), the shape itself is restored
exactly. -/
theorem claimC6 (t : TreeNode α) :
    t.leftRotate.rightRotate.toVec = t.toVec ∧
    t.rightRotate.leftRotate.toVec = t.toVec ∧
    (t.leftRotate ≠ t → t.leftRotate.rightRotate = t) ∧
    (t.rightRotate ≠ t → t.rightRotate.leftRotate = t) := by
  refine ⟨?_, ?_, ?_, ?_⟩
  · rw [toVec_rightRotate, toVec_leftRotate]
  · rw [toVec_leftRotate, toVec_rightRotate]
  · intro h
    match t with
    | leaf => exact absurd rfl h
    | node v l leaf => exact absurd rfl h
    | node v l (node rv rl rr) => rfl
  · intro h
    match t with
    | leaf => exact absurd rfl h
    | node v leaf r => exact absurd rfl h
    | node v (node lv ll lr) r => rfl

/-- Witness for C6 at a concrete tree where the left rotation is not a
no-op. -/
theorem claimC6_witness :
    (node 1 leaf (node 2 leaf leaf) : TreeNode Int).leftRotate ≠
        node 1 leaf (node 2 leaf leaf) ∧
      (node 1 leaf (node 2 leaf leaf) : TreeNode Int).leftRotate.rightRotate =
        node 1 leaf (node 2 leaf leaf) :=
  ⟨by decide, (claimC6 (node 1 leaf (node 2 leaf leaf) : TreeNode Int)).2.2.1 (by decide)⟩

/-- Claim C7: rotating an `Empty` node, or a node whose pivot child is
`Empty`, leaves the tree entirely unchanged (rotation is total and never
signals failure: in the embedding both rotations are total functions). -/
theorem claimC7 :
    (leaf : TreeNode α).leftRotate = leaf ∧
    (leaf : TreeNode α).rightRotate = leaf ∧
    (∀ (v : α) (l : TreeNode α), (node v l leaf).leftRotate = node v l leaf) ∧
    (∀ (v : α) (r : TreeNode α), (node v leaf r).rightRotate = node v leaf r) :=
  ⟨rfl, rfl, fun _ _ => rfl, fun _ _ => rfl⟩

/-- Claim C8: on a tree satisfying both invariants, the in-order sequence
after `insert v` is the sorted insertion of `v` into the previous in-order
sequence (unchanged if `v` was present): `v` is present afterwards, every
previous value is still present, and nothing else appears. -/
theorem claimC8 (t : TreeNode α) (v : α) (hval : t.validate = true) :
    (t.insert v).toVec =
      (if v ∈ t.toVec then t.toVec else List.orderedInsert (· ≤ ·) v t.toVec) ∧
      ∀ x, x ∈ (t.insert v).toVec ↔ x = v ∨ x ∈ t.toVec :=
  ⟨toVec_insert v t (pairwise_toVec_of_validate hval),
   mem_toVec_insert v t (pairwise_toVec_of_validate hval)⟩

/-- Witness for C8 at the concrete valid tree built from `[2, 1, 3]` and
the new value `4`. -/
theorem claimC8_witness :
    (fromVec ([2, 1, 3] : List Int)).validate = true ∧
      (((fromVec ([2, 1, 3] : List Int)).insert 4).toVec =
          (if (4 : Int) ∈ (fromVec ([2, 1, 3] : List Int)).toVec
           then (fromVec ([2, 1, 3] : List Int)).toVec
           else List.orderedInsert (· ≤ ·) 4 (fromVec ([2, 1, 3] : List Int)).toVec) ∧
        ∀ x, x ∈ ((fromVec ([2, 1, 3] : List Int)).insert 4).toVec ↔
          x = 4 ∨ x ∈ (fromVec ([2, 1, 3] : List Int)).toVec) :=
  ⟨by decide, claimC8 _ 4 (by decide)⟩

end TreeNode

/-! ### Claims about the linked list -/

/-- Claim C9: building a linked list from any sequence (inserting each
element in order through the moving cursor) and flattening it back yields
exactly the original sequence. -/
theorem claimC9 {α : Type} (xs : List α) :
    (ListNode.fromVec xs).toVec = xs := by
  cases xs with
  | nil => rfl
  | cons x rest =>
      show (ListNode.buildAux (ListNode.cons x ListNode.nil) rest).toVec = x :: rest
      rw [ListNode.toVec_buildAux]
      simp [ListNode.toVec]

/-- Claim C10: `insert` on a `Nil` node replaces the node in place by a
one-element node with `Nil` tail and returns a reference to that same node
(returned-reference depth 0), so the element lands at the given position
itself. -/
theorem claimC10 {α : Type} (v : α) :
    ListNode.insert ListNode.nil v = (ListNode.cons v ListNode.nil, 0) ∧
      (ListNode.insert ListNode.nil v).1.toVec = [v] :=
  ⟨rfl, rfl⟩

/-! ### Reachability: every valid tree is built by level-order insertion -/

namespace TreeNode

variable {α : Type} [LinearOrder α]

/-- The values stored at depth exactly `m` (left to right). -/
def keysAtDepth : TreeNode α → Nat → List α
  | leaf, _ => []
  | node v _ _, 0 => [v]
  | node _ l r, m+1 => keysAtDepth l m ++ keysAtDepth r m

/-- The values at depth `< d`, listed level by level. -/
def levelList : TreeNode α → Nat → List α
  | _, 0 => []
  | t, d+1 => levelList t d ++ keysAtDepth t d

/-- Truncation of a tree: keeps every node of depth `< m`, and a node at
depth exactly `m` iff its value satisfies `p`. -/
def truncP (p : α → Bool) : TreeNode α → Nat → TreeNode α
  | leaf, _ => leaf
  | node v _ _, 0 => if p v then node v leaf leaf else leaf
  | node v l r, m+1 => node v (truncP p l m) (truncP p r m)

theorem mem_toVec_of_mem_keysAtDepth :
    ∀ (t : TreeNode α) (m : Nat) (x : α), x ∈ keysAtDepth t m → x ∈ t.toVec := by
  intro t
  induction t with
  | leaf => intro m x h; simp [keysAtDepth] at h
  | node v l r ihl ihr =>
      intro m x h
      cases m with
      | zero =>
          rw [keysAtDepth, List.mem_singleton] at h
          subst h
          exact List.mem_append.mpr (Or.inr (List.mem_cons_self x _))
      | succ m =>
          rw [keysAtDepth] at h
          rw [toVec]
          rcases List.mem_append.mp h with h | h
          · exact List.mem_append.mpr (Or.inl (ihl m x h))
          · exact List.mem_append.mpr
              (Or.inr (List.mem_cons.mpr (Or.inr (ihr m x h))))

theorem keysAtDepth_sublist (t : TreeNode α) :
    ∀ m, List.Sublist (keysAtDepth t m) t.toVec := by
  induction t with
  | leaf => intro m; simp [keysAtDepth, toVec]
  | node v l r ihl ihr =>
      intro m
      cases m with
      | zero =>
          rw [keysAtDepth, toVec]
          exact (List.cons_sublist_cons.mpr (List.nil_sublist _)).trans
            (List.sublist_append_right _ _)
      | succ m =>
          rw [keysAtDepth, toVec]
          exact List.Sublist.append (ihl m)
            ((ihr m).trans (List.sublist_cons_self v r.toVec))

theorem keysAtDepth_nodup {t : TreeNode α} (hp : t.toVec.Pairwise (· < ·))
    (m : Nat) : (keysAtDepth t m).Nodup :=
  (hp.imp ne_of_lt).sublist (keysAtDepth_sublist t m)

theorem truncP_congr {p q : α → Bool} :
    ∀ (t : TreeNode α) (m : Nat), (∀ x ∈ keysAtDepth t m, p x = q x) →
      truncP p t m = truncP q t m := by
  intro t
  induction t with
  | leaf => intro m _; rfl
  | node v l r ihl ihr =>
      intro m h
      cases m with
      | zero =>
          rw [truncP, truncP, h v (by rw [keysAtDepth]; exact List.mem_singleton_self v)]
      | succ m =>
          rw [truncP, truncP,
            ihl m (fun x hx => h x (by rw [keysAtDepth]; exact List.mem_append.mpr (Or.inl hx))),
            ihr m (fun x hx => h x (by rw [keysAtDepth]; exact List.mem_append.mpr (Or.inr hx)))]

theorem truncP_false_zero (t : TreeNode α) :
    truncP (fun _ => false) t 0 = leaf := by
  cases t with
  | leaf => rfl
  | node v l r => rw [truncP]; simp

theorem truncP_true_eq_succ :
    ∀ (t : TreeNode α) (m : Nat),
      truncP (fun _ => true) t m = truncP (fun _ => false) t (m+1) := by
  intro t
  induction t with
  | leaf => intro m; rfl
  | node v l r ihl ihr =>
      intro m
      cases m with
      | zero => rw [truncP, truncP, if_pos rfl, truncP_false_zero, truncP_false_zero]
      | succ m => rw [truncP, truncP, ihl m, ihr m]

theorem truncP_of_height_le (p : α → Bool) :
    ∀ (t : TreeNode α) (m : Nat), t.height ≤ m → truncP p t m = t := by
  intro t
  induction t with
  | leaf => intro m _; rfl
  | node v l r ihl ihr =>
      intro m h
      rw [height] at h
      cases m with
      | zero => omega
      | succ m =>
          rw [truncP, ihl m (by omega), ihr m (by omega)]

theorem height_of_keysAtDepth_mem :
    ∀ (t : TreeNode α) (m : Nat) (x : α), x ∈ keysAtDepth t m → m + 1 ≤ t.height := by
  intro t
  induction t with
  | leaf => intro m x h; simp [keysAtDepth] at h
  | node v l r ihl ihr =>
      intro m x h
      cases m with
      | zero => rw [height]; omega
      | succ m =>
          rw [keysAtDepth] at h
          rw [height]
          rcases List.mem_append.mp h with h | h
          · have := ihl m x h; omega
          · have := ihr m x h; omega

theorem height_truncP_le (p : α → Bool) :
    ∀ (t : TreeNode α) (m : Nat), (truncP p t m).height ≤ m + 1 := by
  intro t
  induction t with
  | leaf => intro m; simp [truncP, height]
  | node v l r ihl ihr =>
      intro m
      cases m with
      | zero =>
          rw [truncP]
          split
          · simp [height]
          · simp [height]
      | succ m =>
          rw [truncP, height]
          have := ihl m
          have := ihr m
          omega

theorem height_truncP_of_none (p : α → Bool) :
    ∀ (t : TreeNode α) (m : Nat), (∀ x ∈ keysAtDepth t m, p x = false) →
      (truncP p t m).height = min t.height m := by
  intro t
  induction t with
  | leaf => intro m _; simp [truncP, height]
  | node v l r ihl ihr =>
      intro m h
      cases m with
      | zero =>
          rw [truncP, if_neg (by
            rw [h v (by rw [keysAtDepth]; exact List.mem_singleton_self v)]
            exact Bool.false_ne_true)]
          simp [height]
      | succ m =>
          rw [truncP, height, height,
            ihl m (fun x hx => h x (by rw [keysAtDepth]; exact List.mem_append.mpr (Or.inl hx))),
            ihr m (fun x hx => h x (by rw [keysAtDepth]; exact List.mem_append.mpr (Or.inr hx)))]
          omega

theorem height_truncP_of_some (p : α → Bool) :
    ∀ (t : TreeNode α) (m : Nat), (∃ x ∈ keysAtDepth t m, p x = true) →
      (truncP p t m).height = m + 1 := by
  intro t
  induction t with
  | leaf => intro m h; simp [keysAtDepth] at h
  | node v l r ihl ihr =>
      intro m h
      cases m with
      | zero =>
          obtain ⟨x, hx, hpx⟩ := h
          rw [keysAtDepth, List.mem_singleton] at hx
          subst hx
          rw [truncP, if_pos hpx]
          simp [height]
      | succ m =>
          obtain ⟨x, hx, hpx⟩ := h
          rw [keysAtDepth] at hx
          rw [truncP, height]
          have h1 := height_truncP_le p l m
          have h2 := height_truncP_le p r m
          rcases List.mem_append.mp hx with hx | hx
          · have := ihl m ⟨x, hx, hpx⟩; omega
          · have := ihr m ⟨x, hx, hpx⟩; omega

theorem isBalanced_truncP (p : α → Bool) :
    ∀ (t : TreeNode α) (m : Nat), t.isBalanced = true →
      (truncP p t m).isBalanced = true := by
  intro t
  induction t with
  | leaf => intro m _; exact rfl
  | node v l r ihl ihr =>
      intro m hb
      obtain ⟨hd, hbl, hbr⟩ := isBalanced_node_iff.mp hb
      cases m with
      | zero =>
          rw [truncP]
          split
          · simp [isBalanced, height]
          · rfl
      | succ m =>
          rw [truncP, isBalanced_node_iff]
          refine ⟨?_, ihl m hbl, ihr m hbr⟩
          by_cases hal : (keysAtDepth l m).any p
          · rw [List.any_eq_true] at hal
            have hhl := height_truncP_of_some p l m hal
            obtain ⟨x, hx, _⟩ := hal
            have hlh := height_of_keysAtDepth_mem l m x hx
            by_cases har : (keysAtDepth r m).any p
            · rw [List.any_eq_true] at har
              have hhr := height_truncP_of_some p r m har
              omega
            · have hnone : ∀ x ∈ keysAtDepth r m, p x = false := by
                intro y hy
                by_contra hc
                exact har (List.any_eq_true.mpr ⟨y, hy, by
                  cases hpy : p y with
                  | false => exact absurd hpy hc
                  | true => rfl⟩)
              have hhr := height_truncP_of_none p r m hnone
              omega
          · have hnonel : ∀ x ∈ keysAtDepth l m, p x = false := by
              intro y hy
              by_contra hc
              exact hal (List.any_eq_true.mpr ⟨y, hy, by
                cases hpy : p y with
                | false => exact absurd hpy hc
                | true => rfl⟩)
            have hhl := height_truncP_of_none p l m hnonel
            by_cases har : (keysAtDepth r m).any p
            · rw [List.any_eq_true] at har
              have hhr := height_truncP_of_some p r m har
              obtain ⟨x, hx, _⟩ := har
              have hrh := height_of_keysAtDepth_mem r m x hx
              omega
            · have hnone : ∀ x ∈ keysAtDepth r m, p x = false := by
                intro y hy
                by_contra hc
                exact har (List.any_eq_true.mpr ⟨y, hy, by
                  cases hpy : p y with
                  | false => exact absurd hpy hc
                  | true => rfl⟩)
              have hhr := height_truncP_of_none p r m hnone
              omega

theorem isBSTHelper_truncP (p : α → Bool) :
    ∀ (t : TreeNode α) (m : Nat) (lo hi : Option α),
      isBSTHelper t lo hi = true → isBSTHelper (truncP p t m) lo hi = true := by
  intro t
  induction t with
  | leaf => intro m lo hi _; exact rfl
  | node v l r ihl ihr =>
      intro m lo hi h
      simp only [isBSTHelper, Bool.and_eq_true] at h
      obtain ⟨⟨⟨hlo, hhi⟩, hbl⟩, hbr⟩ := h
      cases m with
      | zero =>
          rw [truncP]
          split
          · simp only [isBSTHelper, Bool.and_eq_true]
            exact ⟨⟨⟨hlo, hhi⟩, trivial⟩, trivial⟩
          · rfl
      | succ m =>
          rw [truncP]
          simp only [isBSTHelper, Bool.and_eq_true]
          exact ⟨⟨⟨hlo, hhi⟩, ihl m lo (some v) hbl⟩, ihr m (some v) hi hbr⟩

end TreeNode

namespace TreeNode

variable {α : Type} [LinearOrder α]

theorem validate_node {c : α} {l r : TreeNode α} (h : (node c l r).validate = true) :
    l.validate = true ∧ r.validate = true ∧
      (∀ x ∈ l.toVec, x < c) ∧ (∀ x ∈ r.toVec, c < x) ∧
      (node c l r).isBalanced = true := by
  have hp := pairwise_toVec_of_validate h
  rw [toVec, List.pairwise_append] at hp
  obtain ⟨hpl, hpvr, hcross⟩ := hp
  rw [List.pairwise_cons] at hpvr
  obtain ⟨hhead, hpr⟩ := hpvr
  rw [validate, Bool.and_eq_true] at h
  obtain ⟨hbst, hbal⟩ := h
  obtain ⟨hdd, hbl, hbr⟩ := isBalanced_node_iff.mp hbal
  exact ⟨by rw [validate, Bool.and_eq_true, isBST_iff]; exact ⟨hpl, hbl⟩,
    by rw [validate, Bool.and_eq_true, isBST_iff]; exact ⟨hpr, hbr⟩,
    fun x hx => hcross x hx c (List.mem_cons_self c _),
    hhead, hbal⟩

theorem insert_truncP (v : α) :
    ∀ (t : TreeNode α) (m : Nat) (p : α → Bool),
      t.validate = true → v ∈ keysAtDepth t m → p v = false →
      (truncP p t m).insert v = truncP (fun x => p x || decide (x = v)) t m := by
  intro t
  induction t with
  | leaf => intro m p _ hm _; simp [keysAtDepth] at hm
  | node c l r ihl ihr =>
      intro m p hval hm hp
      obtain ⟨hvl, hvr, hltx, hgtx, hbal⟩ := validate_node hval
      cases m with
      | zero =>
          rw [keysAtDepth, List.mem_singleton] at hm
          subst hm
          rw [truncP, if_neg (by simp [hp]), truncP, if_pos (by simp [hp]),
            insert, rebalanceIfNeeded, if_pos (by simp [isBalanced, height])]
      | succ m =>
          rw [keysAtDepth] at hm
          rw [truncP, truncP]
          rcases List.mem_append.mp hm with hml | hmr
          · have hvc : v < c := hltx v (mem_toVec_of_mem_keysAtDepth l m v hml)
            rw [insert, if_neg (not_lt.mpr (le_of_lt hvc)), if_pos hvc,
              ihl m p hvl hml hp]
            have hcongr : truncP p r m = truncP (fun x => p x || decide (x = v)) r m := by
              apply truncP_congr
              intro x hx
              have hcx : c < x := hgtx x (mem_toVec_of_mem_keysAtDepth r m x hx)
              have hxv : ¬ (x = v) := by
                intro he
                subst he
                exact absurd (lt_trans hvc hcx) (lt_irrefl x)
              simp [hxv]
            have hbal' : (node c (truncP (fun x => p x || decide (x = v)) l m)
                (truncP (fun x => p x || decide (x = v)) r m)).isBalanced = true := by
              have h := isBalanced_truncP (fun x => p x || decide (x = v))
                (node c l r) (m+1) hbal
              rwa [truncP] at h
            rw [hcongr, rebalanceIfNeeded, if_pos hbal']
          · have hcv : c < v := hgtx v (mem_toVec_of_mem_keysAtDepth r m v hmr)
            rw [insert, if_pos hcv, ihr m p hvr hmr hp]
            have hcongr : truncP p l m = truncP (fun x => p x || decide (x = v)) l m := by
              apply truncP_congr
              intro x hx
              have hxc : x < c := hltx x (mem_toVec_of_mem_keysAtDepth l m x hx)
              have hxv : ¬ (x = v) := by
                intro he
                subst he
                exact absurd (lt_trans hxc hcv) (lt_irrefl x)
              simp [hxv]
            have hbal' : (node c (truncP (fun x => p x || decide (x = v)) l m)
                (truncP (fun x => p x || decide (x = v)) r m)).isBalanced = true := by
              have h := isBalanced_truncP (fun x => p x || decide (x = v))
                (node c l r) (m+1) hbal
              rwa [truncP] at h
            rw [hcongr, rebalanceIfNeeded, if_pos hbal']

theorem foldl_insert_level (t : TreeNode α) (m : Nat) (hval : t.validate = true) :
    ∀ (ws : List α) (p : α → Bool), ws.Nodup →
      (∀ w ∈ ws, w ∈ keysAtDepth t m) → (∀ w ∈ ws, p w = false) →
      ws.foldl insert (truncP p t m) =
        truncP (fun x => p x || decide (x ∈ ws)) t m := by
  intro ws
  induction ws with
  | nil =>
      intro p _ _ _
      rw [List.foldl_nil]
      apply truncP_congr
      intro x _
      simp
  | cons w ws ih =>
      intro p hnd hmem hp
      obtain ⟨hw, hnd'⟩ := List.nodup_cons.mp hnd
      rw [List.foldl_cons,
        insert_truncP w t m p hval (hmem w (List.mem_cons_self w ws))
          (hp w (List.mem_cons_self w ws)),
        ih (fun x => p x || decide (x = w)) hnd'
          (fun x hx => hmem x (List.mem_cons.mpr (Or.inr hx)))
          (fun x hx => by
            simp only [hp x (List.mem_cons.mpr (Or.inr hx)), Bool.false_or,
              decide_eq_false_iff_not]
            intro he
            exact hw (he ▸ hx))]
      apply truncP_congr
      intro x _
      simp [List.mem_cons, Bool.or_assoc]

theorem foldl_insert_levelList (t : TreeNode α) (hval : t.validate = true) :
    ∀ d, (levelList t d).foldl insert leaf = truncP (fun _ => false) t d := by
  intro d
  induction d with
  | zero =>
      rw [levelList, List.foldl_nil]
      exact (truncP_false_zero t).symm
  | succ d ih =>
      rw [levelList, List.foldl_append, ih,
        foldl_insert_level t d hval (keysAtDepth t d) (fun _ => false)
          (keysAtDepth_nodup (pairwise_toVec_of_validate hval) d)
          (fun w hw => hw) (fun _ _ => rfl),
        ← truncP_true_eq_succ]
      apply truncP_congr
      intro x hx
      simp [hx]

/-- Every tree satisfying `validate` is reachable by insertions: inserting
its values level by level (breadth first) into the empty tree rebuilds it
exactly. -/
theorem fromVec_levelList (t : TreeNode α) (hval : t.validate = true) :
    fromVec (levelList t t.height) = t := by
  rw [fromVec, foldl_insert_levelList t hval t.height,
    truncP_of_height_le _ t t.height (le_refl _)]

end TreeNode

/-! ### Fibonacci trees: maximally skewed valid trees -/

namespace TreeNode

variable {α : Type} [LinearOrder α]

/-- Fast-doubling Fibonacci pairs: for `n < 2 ^ fuel`,
`fibD fuel n = (Nat.fib n, Nat.fib (n + 1))`.  Used to evaluate `Nat.fib`
at a large index inside the kernel with logarithmic recursion depth. -/
def fibD : Nat → Nat → Nat × Nat
  | 0, _ => (0, 1)
  | fuel+1, n =>
      if n = 0 then (0, 1) else
      match fibD fuel (n / 2) with
      | (a, b) =>
        if n % 2 = 0 then (a * (2 * b - a), a * a + b * b)
        else (a * a + b * b, a * (2 * b - a) + (a * a + b * b))

theorem fibD_eq (fuel : Nat) :
    ∀ n, n < 2 ^ fuel → fibD fuel n = (Nat.fib n, Nat.fib (n + 1)) := by
  induction fuel with
  | zero => intro n hn; interval_cases n; rfl
  | succ fuel ih =>
      intro n hn
      rcases Nat.eq_zero_or_pos n with rfl | hpos
      · rfl
      · have hhalf : n / 2 < 2 ^ fuel := by
          have h := Nat.pow_lt_pow_right (a := 2) (by norm_num) (Nat.lt_succ_self fuel)
          omega
        have hrec := ih (n / 2) hhalf
        have hne : ¬ (n = 0) := by omega
        rcases Nat.even_or_odd n with he | ho
        · obtain ⟨k, hk⟩ := he
          have hk' : n = 2 * k := by omega
          have hdiv : n / 2 = k := by omega
          have hmod : n % 2 = 0 := by omega
          rw [hdiv] at hrec
          simp only [fibD, hne, if_false, hdiv, hrec, hmod, if_true, Prod.mk.injEq]
          refine ⟨?_, ?_⟩
          · rw [hk', Nat.fib_two_mul]
          · rw [hk', Nat.fib_two_mul_add_one]; ring
        · obtain ⟨k, hk⟩ := ho
          have hdiv : n / 2 = k := by omega
          have hmod : ¬ (n % 2 = 0) := by omega
          rw [hdiv] at hrec
          simp only [fibD, hne, if_false, hdiv, hrec, hmod, Prod.mk.injEq]
          refine ⟨?_, ?_⟩
          · rw [hk, Nat.fib_two_mul_add_one]; ring
          · have h2 : n + 1 = 2 * (k + 1) := by omega
            have hb : Nat.fib (k + 1 + 1) = Nat.fib k + Nat.fib (k + 1) := Nat.fib_add_two
            rw [h2, Nat.fib_two_mul, hb]
            have ha : Nat.fib k ≤ Nat.fib (k + 1) := Nat.fib_le_fib_succ
            have h3 : Nat.fib k ≤ 2 * Nat.fib (k + 1) := by omega
            have h4 : Nat.fib (k + 1) ≤ 2 * (Nat.fib k + Nat.fib (k + 1)) := by omega
            zify [h3, h4]
            ring

/-- The maximally skewed valid tree of height `h` ("Fibonacci tree"),
holding the integer keys `b + 1, …, b + (fib (h + 2) - 1)`. -/
def fibT : Nat → Int → TreeNode Int
  | 0, _ => leaf
  | 1, b => node (b + 1) leaf leaf
  | h+2, b =>
      node (b + ((Nat.fib (h + 3) - 1 : Nat) : Int) + 1)
        (fibT (h+1) b)
        (fibT h (b + ((Nat.fib (h + 3) - 1 : Nat) : Int) + 1))

theorem fibT_height_aux (h : Nat) :
    (∀ b, (fibT h b).height = h) ∧ (∀ b, (fibT (h+1) b).height = h+1) := by
  induction h with
  | zero =>
      refine ⟨fun b => rfl, fun b => ?_⟩
      simp [fibT, height]
  | succ h ih =>
      obtain ⟨ih0, ih1⟩ := ih
      refine ⟨ih1, fun b => ?_⟩
      simp only [fibT, height, ih0, ih1]
      omega

theorem fibT_height (h : Nat) : ∀ b, (fibT h b).height = h :=
  (fibT_height_aux h).1

theorem fibT_length_aux (h : Nat) :
    (∀ b, (fibT h b).toVec.length = Nat.fib (h+2) - 1) ∧
      (∀ b, (fibT (h+1) b).toVec.length = Nat.fib (h+3) - 1) := by
  induction h with
  | zero =>
      refine ⟨fun b => rfl, fun b => rfl⟩
  | succ h ih =>
      obtain ⟨ih0, ih1⟩ := ih
      refine ⟨ih1, fun b => ?_⟩
      simp only [fibT, toVec, List.length_append, List.length_cons, ih0, ih1]
      have hrec : Nat.fib (h + 4) = Nat.fib (h + 2) + Nat.fib (h + 3) := by
        have h0 := Nat.fib_add_two (n := h + 2)
        have e1 : h + 2 + 2 = h + 4 := by omega
        have e2 : h + 2 + 1 = h + 3 := by omega
        rw [e1, e2] at h0
        exact h0
      have hp2 : 0 < Nat.fib (h+2) := Nat.fib_pos.mpr (by omega)
      have hp3 : 0 < Nat.fib (h+3) := Nat.fib_pos.mpr (by omega)
      have e3 : Nat.fib (h + 1 + 3) = Nat.fib (h + 4) := rfl
      omega

theorem fibT_length (h : Nat) : ∀ b, (fibT h b).toVec.length = Nat.fib (h+2) - 1 :=
  (fibT_length_aux h).1

theorem fibT_balanced_aux (h : Nat) :
    (∀ b, (fibT h b).isBalanced = true) ∧
      (∀ b, (fibT (h+1) b).isBalanced = true) := by
  induction h with
  | zero =>
      refine ⟨fun b => rfl, fun b => ?_⟩
      simp [fibT, isBalanced, height]
  | succ h ih =>
      obtain ⟨ih0, ih1⟩ := ih
      refine ⟨ih1, fun b => ?_⟩
      simp only [fibT]
      rw [isBalanced_node_iff]
      refine ⟨?_, ih1 b, ih0 _⟩
      rw [fibT_height, fibT_height]
      omega

theorem fibT_balanced (h : Nat) : ∀ b, (fibT h b).isBalanced = true :=
  (fibT_balanced_aux h).1

theorem fibT_bounds_aux (h : Nat) :
    ((∀ b, (fibT h b).toVec.Pairwise (· < ·) ∧
        ∀ x ∈ (fibT h b).toVec, b < x ∧ x ≤ b + ((Nat.fib (h+2) - 1 : Nat) : Int)) ∧
      (∀ b, (fibT (h+1) b).toVec.Pairwise (· < ·) ∧
        ∀ x ∈ (fibT (h+1) b).toVec, b < x ∧ x ≤ b + ((Nat.fib (h+3) - 1 : Nat) : Int))) := by
  induction h with
  | zero =>
      constructor
      · intro b
        exact ⟨List.Pairwise.nil, by simp [fibT, toVec]⟩
      · intro b
        refine ⟨?_, ?_⟩
        · show (node (b+1) leaf leaf : TreeNode Int).toVec.Pairwise (· < ·)
          simp [toVec]
        · show ∀ x ∈ (node (b+1) leaf leaf : TreeNode Int).toVec,
            b < x ∧ x ≤ b + ((Nat.fib 3 - 1 : Nat) : Int)
          intro x hx
          simp only [toVec, List.nil_append, List.mem_singleton] at hx
          subst hx
          have h3 : Nat.fib 3 = 2 := rfl
          rw [h3]
          omega
  | succ h ih =>
      obtain ⟨ih0, ih1⟩ := ih
      refine ⟨ih1, fun b => ?_⟩
      have hrec : Nat.fib (h + 4) = Nat.fib (h + 2) + Nat.fib (h + 3) := by
        have h0 := Nat.fib_add_two (n := h + 2)
        have e1 : h + 2 + 2 = h + 4 := by omega
        have e2 : h + 2 + 1 = h + 3 := by omega
        rw [e1, e2] at h0
        exact h0
      have hp2 : 0 < Nat.fib (h+2) := Nat.fib_pos.mpr (by omega)
      have hp3 : 0 < Nat.fib (h+3) := Nat.fib_pos.mpr (by omega)
      have e3 : Nat.fib (h + 1 + 3) = Nat.fib (h + 4) := rfl
      obtain ⟨hpL, hbL⟩ := ih1 b
      obtain ⟨hpR, hbR⟩ :=
        ih0 (b + ((Nat.fib (h + 3) - 1 : Nat) : Int) + 1)
      constructor
      · simp only [fibT, toVec]
        rw [List.pairwise_append]
        refine ⟨hpL, ?_, ?_⟩
        · rw [List.pairwise_cons]
          exact ⟨fun y hy => (hbR y hy).1, hpR⟩
        · intro a ha y hy
          have h1 := (hbL a ha).2
          rcases List.mem_cons.mp hy with rfl | hy
          · omega
          · have h2 := (hbR y hy).1
            omega
      · intro x hx
        simp only [fibT, toVec] at hx
        rcases List.mem_append.mp hx with hx | hx
        · have h1 := hbL x hx
          omega
        · rcases List.mem_cons.mp hx with rfl | hx
          · omega
          · have h1 := hbR x hx
            omega

theorem fibT_validate (h : Nat) (b : Int) : (fibT h b).validate = true := by
  rw [validate, Bool.and_eq_true]
  exact ⟨(isBST_iff _).mpr ((fibT_bounds_aux h).1 b).1, fibT_balanced h b⟩

/-- Minimal size of a balanced tree: a tree of height `h` satisfying the
balance invariant holds at least `fib (h + 2) - 1` values. -/
theorem fib_height_le_length :
    ∀ t : TreeNode α, t.isBalanced = true →
      Nat.fib (t.height + 2) ≤ t.toVec.length + 1 := by
  intro t
  induction t with
  | leaf => intro _; simp [height, toVec, Nat.fib_two]
  | node c l r ihl ihr =>
      intro hb
      obtain ⟨hd, hbl, hbr⟩ := isBalanced_node_iff.mp hb
      have h1 := ihl hbl
      have h2 := ihr hbr
      rw [height, toVec, List.length_append, List.length_cons]
      rcases le_total l.height r.height with hle | hle
      · rw [max_eq_right hle]
        have hrec := Nat.fib_add_two (n := r.height + 1)
        have e1 : r.height + 1 + 2 = 1 + r.height + 2 := by omega
        have e2 : r.height + 1 + 1 = r.height + 2 := by omega
        rw [e1, e2] at hrec
        have hmono : Nat.fib (r.height + 1) ≤ Nat.fib (l.height + 2) :=
          Nat.fib_mono (by omega)
        omega
      · rw [max_eq_left hle]
        have hrec := Nat.fib_add_two (n := l.height + 1)
        have e1 : l.height + 1 + 2 = 1 + l.height + 2 := by omega
        have e2 : l.height + 1 + 1 = l.height + 2 := by omega
        rw [e1, e2] at hrec
        have hmono : Nat.fib (l.height + 1) ≤ Nat.fib (r.height + 2) :=
          Nat.fib_mono (by omega)
        omega

end TreeNode

/-! ### The golden ratio and the AVL height bound -/

namespace TreeNode

variable {α : Type} [LinearOrder α]

/-- The golden ratio. -/
noncomputable def phiR : ℝ := (1 + Real.sqrt 5) / 2

theorem sqrt5_ge : (559/250 : ℝ) ≤ Real.sqrt 5 :=
  (Real.le_sqrt (by norm_num) (by norm_num)).mpr (by norm_num)

theorem sqrt5_le : Real.sqrt 5 ≤ 3 :=
  Real.sqrt_le_iff.mpr (by norm_num)

theorem phiR_pos : 0 < phiR := by
  have h := Real.sqrt_nonneg 5
  rw [phiR]
  linarith

theorem phiR_ge : (809/500 : ℝ) ≤ phiR := by
  have h := sqrt5_ge
  rw [phiR]
  linarith

theorem phiR_le_two : phiR ≤ 2 := by
  have h := sqrt5_le
  rw [phiR]
  linarith

theorem phiR_sq : phiR ^ 2 = phiR + 1 := by
  have h5 : Real.sqrt 5 ^ 2 = 5 := Real.sq_sqrt (by norm_num)
  rw [phiR]
  linear_combination h5 / 4

theorem phiR_pow_le_fib : ∀ h : Nat, phiR ^ h ≤ (Nat.fib (h + 2) : ℝ) := by
  have key : ∀ h : Nat,
      phiR ^ h ≤ (Nat.fib (h + 2) : ℝ) ∧ phiR ^ (h+1) ≤ (Nat.fib (h + 3) : ℝ) := by
    intro h
    induction h with
    | zero =>
        constructor
        · norm_num [show Nat.fib 2 = 1 from rfl]
        · rw [pow_one, show Nat.fib (0 + 3) = 2 from rfl]
          have := phiR_le_two
          push_cast
          linarith
    | succ h ih =>
        obtain ⟨ih0, ih1⟩ := ih
        have ih1' : phiR ^ (h + 1) ≤ (Nat.fib (h + 1 + 2) : ℝ) := ih1
        refine ⟨ih1', ?_⟩
        have hrec : Nat.fib (h + 4) = Nat.fib (h + 2) + Nat.fib (h + 3) := by
          have h0 := Nat.fib_add_two (n := h + 2)
          have e1 : h + 2 + 2 = h + 4 := by omega
          have e2 : h + 2 + 1 = h + 3 := by omega
          rw [e1, e2] at h0
          exact h0
        have hpow : phiR ^ (h + 2) = phiR ^ (h+1) + phiR ^ h := by
          have he : phiR ^ (h + 2) = phiR ^ h * phiR ^ 2 := by ring
          rw [he, phiR_sq]
          ring
        show phiR ^ (h + 2) ≤ (Nat.fib (h + 1 + 3) : ℝ)
        have e4 : Nat.fib (h + 1 + 3) = Nat.fib (h + 4) := rfl
        rw [e4, hpow, hrec]
        push_cast
        linarith
  exact fun h => (key h).1

theorem pow_ineq_num : (2:ℝ) ^ (20:Nat) ≤ ((809:ℝ)/500) ^ (29:Nat) := by
  rw [div_pow, le_div_iff (by positivity)]
  have hnat : (2:Nat) ^ 20 * 500 ^ 29 ≤ 809 ^ 29 := by decide
  exact_mod_cast hnat

theorem logb_phiR_ge : (20 : ℝ)/29 ≤ Real.logb 2 phiR := by
  have hp : (2:ℝ) ^ (20:Nat) ≤ phiR ^ (29:Nat) := by
    calc (2:ℝ) ^ (20:Nat) ≤ ((809:ℝ)/500) ^ (29:Nat) := pow_ineq_num
      _ ≤ phiR ^ (29:Nat) := pow_le_pow_left (by norm_num) phiR_ge 29
  have hlog := Real.logb_le_logb_of_le (by norm_num : (1:ℝ) < 2)
    (by positivity) hp
  rw [Real.logb_pow, Real.logb_pow, Real.logb_self_eq_one (by norm_num)] at hlog
  push_cast at hlog
  linarith

/-- Claim C5, amended: for every tree constructed from the empty tree by
insertions only, `height(tree) <= ceil(1.45 * log2(n + 2))` where `n` is
the number of elements.  (The claim's constant 1.44 is slightly below
`1 / log2 phi ~ 1.4404` and fails for the maximally skewed valid trees of
large height; 1.45 is sound.) -/
theorem claimC5_amended (xs : List α) :
    (fromVec xs).height ≤
      ⌈(1.45 : ℝ) * Real.logb 2 (((fromVec xs).toVec.length : ℝ) + 2)⌉₊ := by
  have hval := validate_fromVec xs
  rw [validate, Bool.and_eq_true] at hval
  have hfib := fib_height_le_length (fromVec xs) hval.2
  have h0 : phiR ^ (fromVec xs).height ≤ ((fromVec xs).toVec.length : ℝ) + 2 := by
    calc phiR ^ (fromVec xs).height
        ≤ (Nat.fib ((fromVec xs).height + 2) : ℝ) := phiR_pow_le_fib _
      _ ≤ ((fromVec xs).toVec.length : ℝ) + 1 := by exact_mod_cast hfib
      _ ≤ ((fromVec xs).toVec.length : ℝ) + 2 := by linarith
  have hl1 : ((fromVec xs).height : ℝ) * Real.logb 2 phiR ≤
      Real.logb 2 (((fromVec xs).toVec.length : ℝ) + 2) := by
    have h := Real.logb_le_logb_of_le (by norm_num : (1:ℝ) < 2)
      (pow_pos phiR_pos _) h0
    rwa [Real.logb_pow] at h
  have hfinal : ((fromVec xs).height : ℝ) ≤
      (1.45 : ℝ) * Real.logb 2 (((fromVec xs).toVec.length : ℝ) + 2) := by
    have hh0 : (0:ℝ) ≤ ((fromVec xs).height : ℝ) := Nat.cast_nonneg _
    have h29 : (1:ℝ) ≤ (1.45 : ℝ) * Real.logb 2 phiR := by
      have := logb_phiR_ge
      linarith
    calc ((fromVec xs).height : ℝ)
        = ((fromVec xs).height : ℝ) * 1 := by ring
      _ ≤ ((fromVec xs).height : ℝ) * ((1.45 : ℝ) * Real.logb 2 phiR) :=
          mul_le_mul_of_nonneg_left h29 hh0
      _ = (1.45 : ℝ) * (((fromVec xs).height : ℝ) * Real.logb 2 phiR) := by ring
      _ ≤ (1.45 : ℝ) * Real.logb 2 (((fromVec xs).toVec.length : ℝ) + 2) :=
          mul_le_mul_of_nonneg_left hl1 (by norm_num)
  calc (fromVec xs).height
      = ⌈(((fromVec xs).height : ℕ) : ℝ)⌉₊ := (Nat.ceil_natCast _).symm
    _ ≤ ⌈(1.45 : ℝ) * Real.logb 2 (((fromVec xs).toVec.length : ℝ) + 2)⌉₊ :=
        Nat.ceil_mono hfinal

set_option exponentiation.threshold 200000 in
set_option maxRecDepth 10000 in
theorem fib5002_bound : (Nat.fib 5002 + 1) ^ 36 ≤ 2 ^ 124975 := by
  have h : Nat.fib 5002 = (fibD 13 5002).1 := by
    rw [fibD_eq 13 5002 (by norm_num)]
  rw [h]
  decide

/-- Counterexample to claim C5 as stated: inserting the keys of the
maximally skewed valid tree of height 5000 in level order (an
insertion-only construction, by `fromVec_levelList`) produces a tree whose
height 5000 exceeds `ceil(1.44 * log2(n + 2)) = 4999`, because
`1.44 < 1 / log2 phi`. -/
theorem claimC5_counterexample :
    ¬ ((fromVec (levelList (fibT 5000 0) 5000)).height ≤
        ⌈(1.44 : ℝ) * Real.logb 2
          (((fromVec (levelList (fibT 5000 0) 5000)).toVec.length : ℝ) + 2)⌉₊) := by
  have hfv : fromVec (levelList (fibT 5000 0) 5000) = fibT 5000 0 := by
    have h := fromVec_levelList (fibT 5000 0) (fibT_validate 5000 0)
    rwa [fibT_height] at h
  rw [hfv, fibT_height, fibT_length]
  intro hcon
  have hfpos : 1 ≤ Nat.fib 5002 := Nat.fib_pos.mpr (by norm_num)
  have hNr : ((Nat.fib (5000 + 2) - 1 : Nat) : ℝ) + 2 = (Nat.fib 5002 : ℝ) + 1 := by
    have e : Nat.fib (5000 + 2) = Nat.fib 5002 := by norm_num
    rw [e, Nat.cast_sub hfpos]
    push_cast
    ring
  rw [hNr] at hcon
  have hkey : ((Nat.fib 5002 : ℝ) + 1) ^ (36:Nat) ≤ (2:ℝ) ^ (124975:Nat) := by
    have h := fib5002_bound
    exact_mod_cast h
  have hpos : (0:ℝ) < (Nat.fib 5002 : ℝ) + 1 := by positivity
  have hlog := Real.logb_le_logb_of_le (by norm_num : (1:ℝ) < 2)
    (pow_pos hpos 36) hkey
  rw [Real.logb_pow, Real.logb_pow, Real.logb_self_eq_one (by norm_num)] at hlog
  push_cast at hlog
  have hceil : (1.44 : ℝ) * Real.logb 2 ((Nat.fib 5002 : ℝ) + 1) ≤ 4999 := by
    have h144 : (1.44 : ℝ) = 36/25 := by norm_num
    rw [h144]
    norm_num at hlog
    linarith only [hlog]
  have hle : ⌈(1.44 : ℝ) * Real.logb 2 ((Nat.fib 5002 : ℝ) + 1)⌉₊ ≤ 4999 :=
    Nat.ceil_le.mpr (by exact_mod_cast hceil)
  omega

end TreeNode
